import Mathlib

/-!
Verification of `riscv_extension_analyzer.py`: a shallow embedding of the
RISC-V ISA-string parser, the implication/shorthand closure engine and the
RVA23 profile check, together with theorems about the spec's claims.

Strings are modelled as `String`/`List Char`; the `SortedList` container of
the source is modelled as a `List String` kept in ascending lexicographic
order by `insertSorted` (duplicates are kept, exactly as `SortedList` does).
The unbounded `while` loops of the source are modelled as fuel-indexed
structural recursions; the fuel supplied by the wrapper definitions is
proved sufficient (the step function returns `none` on the result), so the
wrappers compute the same fixed points as the source's loops.
-/

/-- Error kinds raised by the analyzer (`RiscvExtensionException` messages). -/
inductive RErr where
  | invalidBaseIsa
  | missingExtension
  | expectingUnderscore
  | expectingExtension
  | zeroLengthExtension
  deriving DecidableEq

/-- The characters that switch the tokenizer into multi-character mode
(`if isa_string[0] in 'sxz'`). -/
def sxzChars : List Char := ['s', 'x', 'z']

/-- The virtual-memory scheme names that are exempt from version stripping
(`{'sv32', 'sv39', 'sv48', 'sv59'}` in the source). -/
def svNames : List String := ["sv32", "sv39", "sv48", "sv59"]

/-- Code-point lexicographic comparison of character lists, the order used
by Python's `str` comparison and hence by `SortedList`/`SortedDict`. -/
def charsLE : List Char → List Char → Bool
  | [], _ => true
  | _ :: _, [] => false
  | a :: as, b :: bs => if a = b then charsLE as bs else decide (a < b)

/-- Lexicographic `≤` on strings (by code points). -/
def strLE (a b : String) : Bool := charsLE a.data b.data

/-- `SortedList.add`: insert keeping ascending order; duplicates are kept. -/
def insertSorted (x : String) : List String → List String
  | [] => [x]
  | y :: ys => if strLE x y then x :: y :: ys else y :: insertSorted x ys

/-- A list is in ascending `strLE` order. -/
def SortedS (l : List String) : Prop := List.Pairwise (fun a b => strLE a b = true) l

/-- Single-letter-mode token match: the regex
`^\D\d+p\d+|\D\d+|\D` of the source, applied at the start of the string.
Returns the matched token and the remaining characters. -/
def matchSingle : List Char → Option (List Char × List Char)
  | [] => none
  | c :: cs =>
    if c.isDigit then none
    else if cs.takeWhile Char.isDigit = [] then some ([c], cs)
    else
      match cs.dropWhile Char.isDigit with
      | 'p' :: r2 =>
        if r2.takeWhile Char.isDigit = [] then
          some (c :: cs.takeWhile Char.isDigit, cs.dropWhile Char.isDigit)
        else
          some (c :: cs.takeWhile Char.isDigit ++ 'p' :: r2.takeWhile Char.isDigit,
            r2.dropWhile Char.isDigit)
      | _ => some (c :: cs.takeWhile Char.isDigit, cs.dropWhile Char.isDigit)

/-- Multi-character-mode token match: the regex `^[^_]+` of the source. -/
def matchMulti (l : List Char) : Option (List Char × List Char) :=
  if l.takeWhile (fun c => c != '_') = [] then none
  else some (l.takeWhile (fun c => c != '_'), l.dropWhile (fun c => c != '_'))

/-- Version stripping (lines 236-243 of the source): tokens in `svNames`
are kept; otherwise a trailing `digits p digits` suffix (leftmost match of
`re.search(r'\d+p\d+$', ...)`), or failing that a trailing `digits` suffix,
is removed. -/
def stripVersion (tok : List Char) : List Char :=
  if String.mk tok ∈ svNames then tok
  else if tok.reverse.takeWhile Char.isDigit = [] then tok
  else
    match tok.reverse.dropWhile Char.isDigit with
    | 'p' :: r2 =>
      if r2.takeWhile Char.isDigit = [] then (tok.reverse.dropWhile Char.isDigit).reverse
      else (r2.dropWhile Char.isDigit).reverse
    | _ => (tok.reverse.dropWhile Char.isDigit).reverse

/-- The tokenizer loop of `parse_isa_string` (lines 218-247), fuel-indexed.
Each iteration consumes at least one character, so `fuel = s.length`
suffices; the fuel-exhaustion branch is unreachable from the wrapper. -/
def parseTokensF : Nat → List Char → Bool → List String → Except RErr (List String)
  | _, [], _, acc => .ok acc
  | 0, _ :: _, _, _ => .error .expectingExtension
  | fuel + 1, c :: cs, multi, acc =>
    if c = '_' then
      match cs with
      | [] => .error .missingExtension
      | d :: ds =>
        match (if multi || (d ∈ sxzChars) then matchMulti (d :: ds)
            else matchSingle (d :: ds)) with
        | none => .error .expectingExtension
        | some (tok, rest) =>
          if stripVersion tok = [] then .error .zeroLengthExtension
          else parseTokensF fuel rest (multi || (d ∈ sxzChars))
            (insertSorted (String.mk (stripVersion tok)) acc)
    else if multi then .error .expectingUnderscore
    else
      match (if multi || (c ∈ sxzChars) then matchMulti (c :: cs)
          else matchSingle (c :: cs)) with
      | none => .error .expectingExtension
      | some (tok, rest) =>
        if stripVersion tok = [] then .error .zeroLengthExtension
        else parseTokensF fuel rest (multi || (c ∈ sxzChars))
          (insertSorted (String.mk (stripVersion tok)) acc)

/-- The implication table of `add_implied_extensions` (in `SortedDict` key
order). -/
def impliesTable : List (String × List String) :=
  [("a", ["zaamo"]), ("d", ["f"]), ("f", ["zicsr"]), ("m", ["zmmul"]),
   ("q", ["d"]), ("v", ["d"]), ("zfh", ["zfhmin"])]

/-- The shorthand table of `add_implied_extensions` (in `SortedDict` key
order). -/
def shorthandTable : List (String × List String) :=
  [("b", ["zba", "zbb", "zbs"]),
   ("g", ["i", "m", "a", "f", "d", "zicsr", "zifencei"]),
   ("zk", ["zkn", "zkr", "zkt"]),
   ("zkn", ["zbkb", "zbkc", "zbkx", "zkne", "zknd", "zknh"]),
   ("zks", ["zbkb", "zbkc", "zbkx", "zksed", "zksh"]),
   ("zvkn", ["zvkned", "zvknhb", "zvkb", "zvkt"]),
   ("zvknc", ["zvkn", "zvbc"]),
   ("zvkng", ["zvkn", "zvkg"]),
   ("zvks", ["zvksed", "zvksh", "zvkb", "zvkt"]),
   ("zvksc", ["zvks", "zvbc"]),
   ("zvksg", ["zvks", "zvkg"])]

/-- All values occurring in a table. -/
def tblVals (t : List (String × List String)) : List String :=
  (t.map Prod.snd).flatten

/-- `for implied in table[x]: if implied not in extensions: extensions.add(implied)`:
insert, in order, every value not already present. -/
def addMissing (l : List String) (vs : List String) : List String :=
  vs.foldl (fun acc v => if acc.contains v then acc else insertSorted v acc) l

/-- One restart of the implication `while` loop (lines 178-188): find the
first member (in sorted order) that is an implication key with a missing
value, and add all of its missing values.  `none` when a full pass adds
nothing. -/
def implStepO (t : List (String × List String)) (l : List String) : Option (List String) :=
  match l.find? (fun x =>
      match List.lookup x t with
      | some vs => vs.any (fun v => !(l.contains v))
      | none => false) with
  | none => none
  | some x => some (addMissing l ((List.lookup x t).getD []))

/-- One restart of the shorthand `while` loop (lines 191-201): find the
first member that is a shorthand key, add its missing expansion values and
remove the member itself. `none` when a scan finds no shorthand member. -/
def shStepO (l : List String) : Option (List String) :=
  match l.find? (fun x => (List.lookup x shorthandTable).isSome) with
  | none => none
  | some x => some ((addMissing l ((List.lookup x shorthandTable).getD [])).erase x)

/-- Fuel-indexed iteration of `implStepO`. -/
def implLoop (t : List (String × List String)) : Nat → List String → List String
  | 0, l => l
  | fuel + 1, l =>
    match implStepO t l with
    | none => l
    | some l2 => implLoop t fuel l2

/-- Fuel-indexed iteration of `shStepO`. -/
def shLoop : Nat → List String → List String
  | 0, l => l
  | fuel + 1, l =>
    match shStepO l with
    | none => l
    | some l2 => shLoop fuel l2

/-- Weight used as termination measure of the shorthand loop: strictly
larger than the total weight of the expansion of each shorthand key. -/
def phi (x : String) : Nat :=
  if x = "zk" ∨ x = "zvknc" ∨ x = "zvkng" ∨ x = "zvksc" ∨ x = "zvksg" then 2
  else if x = "b" ∨ x = "g" ∨ x = "zkn" ∨ x = "zks" ∨ x = "zvkn" ∨ x = "zvks" then 1
  else 0

/-- Total weight of a list of names. -/
def Mphi (l : List String) : Nat := (l.map phi).sum

/-- The implication phase of `add_implied_extensions`: iterate until a full
pass adds nothing.  Every addition is a table value not yet present, so
`(tblVals t).length` passes always suffice. -/
def implClose (t : List (String × List String)) (l : List String) : List String :=
  implLoop t (tblVals t).length l

/-- The shorthand phase of `add_implied_extensions`: each expansion strictly
decreases `Mphi`, so `Mphi l` steps always suffice. -/
def shClose (l : List String) : List String :=
  shLoop (Mphi l) l

/-- `add_implied_extensions` (lines 145-201): implication closure first,
then shorthand substitution. -/
def add_implied_extensions (l : List String) : List String :=
  shClose (implClose impliesTable l)

/-- `parse_isa_string` (lines 204-251): tokenize, then close. -/
def parse_isa_string (s : List Char) : Except RErr (List String) :=
  match parseTokensF s.length s false [] with
  | .error e => .error e
  | .ok exts => .ok (add_implied_extensions exts)

/-- `check_base_isa` (lines 111-143): strip the `rv128`/`rv64`/`rv32`
prefix, in that order. -/
def check_base_isa (s : List Char) : Except RErr (Nat × List Char) :=
  if ("rv128").data.isPrefixOf s then .ok (128, s.drop 5)
  else if ("rv64").data.isPrefixOf s then .ok (64, s.drop 4)
  else if ("rv32").data.isPrefixOf s then .ok (32, s.drop 4)
  else .error .invalidBaseIsa

/-- `RiscvExtensionAnalyzer.__init__` (lines 293-306): lowercase, recognize
the base ISA, parse the remainder.  Returns `(bitness, extensions)`. -/
def riscvExtensionAnalyzer (s : String) : Except RErr (Nat × List String) :=
  let low := s.data.map Char.toLower
  match check_base_isa low with
  | .error e => .error e
  | .ok (b, rem) =>
    match parse_isa_string rem with
    | .error e => .error e
    | .ok exts => .ok (b, exts)

/-- `SortedList(iterable)`: sort the elements. -/
def mkSortedList (l : List String) : List String :=
  l.foldl (fun acc x => insertSorted x acc) []

/-- The literal of `linux_supported` (lines 58-69), in source order. -/
def linuxRaw : List String :=
  ["i", "m", "a", "f", "d", "q", "c", "v", "zicbom", "zicboz",
   "ziccrse", "zicntr", "zicond", "zicsr", "zifencei",
   "zihintntl", "zihintpause", "zihpm", "zimop", "zabha", "zacas",
   "zawrs", "zfa", "zfh", "zfhmin", "zca", "zcb", "zcd", "zcf",
   "zcmop", "zba", "zbb", "zbc", "zbkb", "zbkc", "zbkx", "zbs",
   "zk", "zkn", "zknd", "zkne", "zknh", "zkr", "zks", "zkt",
   "zksed", "zksh", "ztso", "zvbb", "zvbc", "zve32f", "zve32x",
   "zve64d", "zve64f", "zve64x", "zvfh", "zvfhmin", "zvkb", "zvkg",
   "zvkn", "zvknc", "zvkned", "zvkng", "zvknha", "zvknhb", "zvks",
   "zvksc", "zvksed", "zvksh", "zvksg", "zvkt"]

/-- `linux_supported` (lines 48-72): the kernel 6.14 set, closed. -/
def linux_supported : List String :=
  add_implied_extensions (mkSortedList linuxRaw)

/-- The literal of `rva23_required` (lines 84-91), in source order. -/
def rva23Raw : List String :=
  ["i", "m", "a", "f", "d", "c", "b", "v", "zic64b",
   "zicbom", "zicbop", "zicboz", "ziccamoa", "ziccif", "zicclsm",
   "ziccrse", "zicntr", "zicond", "zicsr", "zifencei",
   "zihintntl", "zihintpause", "zihpm", "zimop", "za64rs",
   "zawrs", "zfa", "zfbfmin", "zfhmin", "zcb", "zcmop", "zba",
   "zbb", "zbs", "zvbb", "zvfhmin", "zvkt", "zkn", "zkr", "zkt"]

/-- `rva23_required` (lines 74-94): the RVA23 set, closed. -/
def rva23_required : List String :=
  add_implied_extensions (mkSortedList rva23Raw)

/-- `rva23_to_check` (lines 96-109): the members of the closed RVA23 set
also present in the closed kernel-supported set, in sorted order. -/
def rva23_to_check : List String :=
  rva23_required.filter (fun e => linux_supported.contains e)

/-- `is_rva23_ready` (lines 278-291), as a function of the parsed extension
set: raise `Missing extension <e>` on the first member of `rva23_to_check`
absent from `actual`, succeed when there is none. -/
def is_rva23_ready (actual : List String) : Except String Unit :=
  match rva23_to_check.find? (fun e => !(actual.contains e)) with
  | none => .ok ()
  | some e => .error ("Missing extension " ++ e)

/-- The invariant of extension names the spec asserts, amended: non-empty,
and any name containing an underscore is exactly `"_"`. -/
def PExt (x : String) : Prop := x ≠ "" ∧ ('_' ∈ x.data → x = "_")

/-! ### Order lemmas for the lexicographic comparison -/

theorem charsLE_total : ∀ a b : List Char, charsLE a b = true ∨ charsLE b a = true
  | [], _ => Or.inl rfl
  | _ :: _, [] => Or.inr rfl
  | a :: as, b :: bs => by
    by_cases h : a = b
    · subst h
      simpa [charsLE] using charsLE_total as bs
    · rcases lt_trichotomy a b with hlt | heq | hgt
      · left; simp [charsLE, h, hlt]
      · exact absurd heq h
      · right; simp [charsLE, Ne.symm h, hgt]

theorem charsLE_trans :
    ∀ a b c : List Char, charsLE a b = true → charsLE b c = true → charsLE a c = true
  | [], _, _, _, _ => rfl
  | _ :: _, [], _, h, _ => by simp [charsLE] at h
  | _ :: _, _ :: _, [], _, h2 => by simp [charsLE] at h2
  | a :: as, b :: bs, c :: cs, h1, h2 => by
    by_cases hab : a = b <;> by_cases hbc : b = c
    · subst hab; subst hbc
      simp only [charsLE, if_pos rfl] at h1 h2 ⊢
      exact charsLE_trans as bs cs h1 h2
    · subst hab
      simpa [charsLE, hbc] using h2
    · subst hbc
      simpa [charsLE, hab] using h1
    · simp only [charsLE, if_neg hab] at h1
      simp only [charsLE, if_neg hbc] at h2
      have h1' : a < b := of_decide_eq_true h1
      have h2' : b < c := of_decide_eq_true h2
      have hac : a < c := lt_trans h1' h2'
      have hne : a ≠ c := fun h => absurd (h ▸ hac) (lt_irrefl c)
      simp [charsLE, hne, hac]

theorem charsLE_antisymm : ∀ a b : List Char, charsLE a b = true → charsLE b a = true → a = b
  | [], [], _, _ => rfl
  | [], _ :: _, _, h2 => by simp [charsLE] at h2
  | _ :: _, [], h1, _ => by simp [charsLE] at h1
  | a :: as, b :: bs, h1, h2 => by
    by_cases hab : a = b
    · subst hab
      simp only [charsLE, if_pos rfl] at h1 h2
      rw [charsLE_antisymm as bs h1 h2]
    · simp only [charsLE, if_neg hab, if_neg (Ne.symm hab)] at h1 h2
      exact absurd (of_decide_eq_true h2) (lt_asymm (of_decide_eq_true h1))

theorem strLE_total (a b : String) : strLE a b = true ∨ strLE b a = true :=
  charsLE_total a.data b.data

theorem strLE_trans {a b c : String} (h1 : strLE a b = true) (h2 : strLE b c = true) :
    strLE a c = true :=
  charsLE_trans a.data b.data c.data h1 h2

theorem strLE_antisymm {a b : String} (h1 : strLE a b = true) (h2 : strLE b a = true) : a = b :=
  String.ext (charsLE_antisymm a.data b.data h1 h2)

theorem strLE_refl (a : String) : strLE a a = true := by
  rcases strLE_total a a with h | h <;> exact h

theorem charsLE_iff_not_lex : ∀ a b : List Char, charsLE a b = true ↔ ¬ List.Lex (· < ·) b a
  | [], b => by
    refine iff_of_true rfl ?_
    intro h; cases h
  | a :: as, [] => by
    refine iff_of_false (by simp [charsLE]) ?_
    exact fun h => h List.Lex.nil
  | a :: as, b :: bs => by
    by_cases hab : a = b
    · subst hab
      rw [show charsLE (a :: as) (a :: bs) = charsLE as bs from by simp [charsLE]]
      rw [charsLE_iff_not_lex as bs]
      constructor
      · intro h hlex
        cases hlex with
        | cons h2 => exact h h2
        | rel h2 => exact lt_irrefl _ h2
      · exact fun h hlex => h (List.Lex.cons hlex)
    · rcases lt_trichotomy a b with hlt | heq | hgt
      · refine iff_of_true (by simp [charsLE, hab, hlt]) ?_
        intro hlex
        cases hlex with
        | cons _ => exact hab rfl
        | rel h2 => exact lt_asymm hlt h2
      · exact absurd heq hab
      · refine iff_of_false ?_ ?_
        · simp only [charsLE, if_neg hab]
          simp [lt_asymm hgt]
        · exact fun h => h (List.Lex.rel hgt)

/-- `strLE` agrees with Mathlib's lexicographic order on `String`. -/
theorem strLE_iff_le (a b : String) : strLE a b = true ↔ a ≤ b := by
  rw [String.le_iff_toList_le, ← not_lt]
  exact charsLE_iff_not_lex a.data b.data

/-! ### Lemmas about sorted insertion -/

theorem mem_insertSorted (x a : String) :
    ∀ l : List String, a ∈ insertSorted x l ↔ a = x ∨ a ∈ l
  | [] => by simp [insertSorted]
  | y :: ys => by
    by_cases h : strLE x y = true
    · simp only [insertSorted, if_pos h, List.mem_cons]
    · simp only [insertSorted, if_neg h, List.mem_cons, mem_insertSorted x a ys]
      tauto

theorem insertSorted_perm (x : String) :
    ∀ l : List String, List.Perm (insertSorted x l) (x :: l)
  | [] => List.Perm.refl _
  | y :: ys => by
    by_cases h : strLE x y = true
    · simp [insertSorted, h]
    · have ih := insertSorted_perm x ys
      have h1 : insertSorted x (y :: ys) = y :: insertSorted x ys := by
        simp [insertSorted, h]
      rw [h1]
      exact (ih.cons y).trans (List.Perm.swap x y ys)

theorem count_insertSorted (x a : String) (l : List String) :
    List.count a (insertSorted x l) = List.count a (x :: l) :=
  (insertSorted_perm x l).count_eq a

theorem SortedS_insertSorted (x : String) :
    ∀ l : List String, SortedS l → SortedS (insertSorted x l)
  | [], _ => by
    simp only [insertSorted, SortedS]
    exact List.pairwise_singleton _ _
  | y :: ys, hs => by
    rcases List.pairwise_cons.mp hs with ⟨hy, hys⟩
    by_cases h : strLE x y = true
    · have h1 : insertSorted x (y :: ys) = x :: y :: ys := by simp [insertSorted, h]
      rw [SortedS, h1]
      refine List.pairwise_cons.mpr ⟨?_, hs⟩
      intro z hz
      rcases List.mem_cons.mp hz with rfl | hz
      · exact h
      · exact strLE_trans h (hy z hz)
    · have hyx : strLE y x = true := (strLE_total x y).resolve_left h
      have h1 : insertSorted x (y :: ys) = y :: insertSorted x ys := by
        simp [insertSorted, h]
      rw [SortedS, h1]
      refine List.pairwise_cons.mpr ⟨?_, SortedS_insertSorted x ys hys⟩
      intro z hz
      rcases (mem_insertSorted x z ys).mp hz with rfl | hz
      · exact hyx
      · exact hy z hz

/-- `l.contains a` agrees with list membership. -/
theorem contains_iff_mem (l : List String) (a : String) : l.contains a = true ↔ a ∈ l :=
  List.elem_iff

/-! ### Lemmas about addMissing, erase and lookup -/

theorem mem_addMissing_of_mem (x : String) :
    ∀ (vs l : List String), x ∈ l → x ∈ addMissing l vs
  | [], _, h => h
  | v :: vs, l, h => by
    have h1 : addMissing l (v :: vs) =
        addMissing (if l.contains v = true then l else insertSorted v l) vs := rfl
    rw [h1]
    refine mem_addMissing_of_mem x vs _ ?_
    by_cases hc : l.contains v = true
    · rw [if_pos hc]; exact h
    · rw [if_neg hc]; exact (mem_insertSorted v x l).mpr (Or.inr h)

theorem mem_addMissing (x : String) :
    ∀ (vs l : List String), x ∈ addMissing l vs → x ∈ l ∨ x ∈ vs
  | [], _, h => Or.inl h
  | v :: vs, l, h => by
    have h1 : addMissing l (v :: vs) =
        addMissing (if l.contains v = true then l else insertSorted v l) vs := rfl
    rw [h1] at h
    rcases mem_addMissing x vs _ h with h2 | h2
    · by_cases hc : l.contains v = true
      · rw [if_pos hc] at h2; exact Or.inl h2
      · rw [if_neg hc] at h2
        rcases (mem_insertSorted v x l).mp h2 with rfl | h3
        · exact Or.inr (List.mem_cons_self _ _)
        · exact Or.inl h3
    · exact Or.inr (List.mem_cons_of_mem v h2)

theorem mem_addMissing_of_mem_vals (x : String) :
    ∀ (vs l : List String), x ∈ vs → x ∈ addMissing l vs
  | [], _, h => absurd h (List.not_mem_nil x)
  | v :: vs, l, h => by
    have h1 : addMissing l (v :: vs) =
        addMissing (if l.contains v = true then l else insertSorted v l) vs := rfl
    rw [h1]
    rcases List.mem_cons.mp h with rfl | h2
    · refine mem_addMissing_of_mem x vs _ ?_
      by_cases hc : l.contains x = true
      · rw [if_pos hc]; exact (contains_iff_mem l x).mp hc
      · rw [if_neg hc]; exact (mem_insertSorted x x l).mpr (Or.inl rfl)
    · exact mem_addMissing_of_mem_vals x vs _ h2

theorem SortedS_addMissing :
    ∀ (vs l : List String), SortedS l → SortedS (addMissing l vs)
  | [], _, h => h
  | v :: vs, l, h => by
    have h1 : addMissing l (v :: vs) =
        addMissing (if l.contains v = true then l else insertSorted v l) vs := rfl
    rw [h1]
    refine SortedS_addMissing vs _ ?_
    by_cases hc : l.contains v = true
    · rw [if_pos hc]; exact h
    · rw [if_neg hc]; exact SortedS_insertSorted v l h

theorem Mphi_insertSorted (x : String) (l : List String) :
    Mphi (insertSorted x l) = phi x + Mphi l := by
  have h := ((insertSorted_perm x l).map phi).sum_eq
  simpa [Mphi] using h

theorem Mphi_addMissing_le :
    ∀ (vs l : List String), Mphi (addMissing l vs) ≤ Mphi l + (vs.map phi).sum
  | [], l => by simp [addMissing]
  | v :: vs, l => by
    have h1 : addMissing l (v :: vs) =
        addMissing (if l.contains v = true then l else insertSorted v l) vs := rfl
    rw [h1]
    have h2 := Mphi_addMissing_le vs (if l.contains v = true then l else insertSorted v l)
    have h3 : Mphi (if l.contains v = true then l else insertSorted v l) ≤ phi v + Mphi l := by
      by_cases hc : l.contains v = true
      · rw [if_pos hc]; omega
      · rw [if_neg hc, Mphi_insertSorted]
    simp only [List.map_cons, List.sum_cons]
    omega

theorem Mphi_erase {x : String} {l : List String} (h : x ∈ l) :
    Mphi (l.erase x) + phi x = Mphi l := by
  have hp := ((List.perm_cons_erase h).map phi).sum_eq
  simp only [List.map_cons, List.sum_cons] at hp
  simp only [Mphi]
  omega

theorem SortedS_erase (x : String) (l : List String) (h : SortedS l) : SortedS (l.erase x) :=
  List.Pairwise.sublist (List.erase_sublist x l) h

theorem lookup_some_mem {x : String} {vs : List String} :
    ∀ t : List (String × List String), List.lookup x t = some vs → (x, vs) ∈ t
  | [], h => by simp [List.lookup] at h
  | (k, v) :: t, h => by
    rw [List.lookup_cons] at h
    cases hk : x == k with
    | true =>
      rw [hk] at h
      simp only [Option.some.injEq] at h
      have hx : x = k := eq_of_beq hk
      subst hx; subst h
      exact List.mem_cons_self _ _
    | false =>
      rw [hk] at h
      exact List.mem_cons_of_mem _ (lookup_some_mem t h)

theorem lookup_isSome_iff (x : String) :
    ∀ t : List (String × List String),
      (List.lookup x t).isSome = true ↔ x ∈ t.map Prod.fst
  | [] => by simp [List.lookup]
  | (k, v) :: t => by
    rw [List.lookup_cons]
    cases hk : x == k with
    | true =>
      simp [eq_of_beq hk]
    | false =>
      have hne : ¬ x = k := fun he => by simp [he] at hk
      simp [hne, lookup_isSome_iff x t]

theorem mem_tblVals {t : List (String × List String)} {x : String} {vs : List String}
    (hmem : (x, vs) ∈ t) (v : String) (hv : v ∈ vs) : v ∈ tblVals t := by
  simp only [tblVals, List.mem_flatten]
  exact ⟨vs, List.mem_map_of_mem Prod.snd hmem, hv⟩

/-! ### Destructors for the loop steps -/

theorem implStepO_some {t : List (String × List String)} {l l2 : List String}
    (h : implStepO t l = some l2) :
    ∃ x vs, List.lookup x t = some vs ∧ x ∈ l ∧ (∃ v ∈ vs, ¬ v ∈ l) ∧
      l2 = addMissing l vs := by
  unfold implStepO at h
  cases hfind : l.find? (fun x =>
      match List.lookup x t with
      | some vs => vs.any (fun v => !(l.contains v))
      | none => false) with
  | none => rw [hfind] at h; cases h
  | some x =>
    rw [hfind] at h
    have hx : x ∈ l := List.mem_of_find?_eq_some hfind
    have hpx := List.find?_some hfind
    cases hlk : List.lookup x t with
    | none => rw [hlk] at hpx; cases hpx
    | some vs =>
      rw [hlk] at hpx
      simp only at hpx
      rcases List.any_eq_true.mp hpx with ⟨v, hv, hnv⟩
      refine ⟨x, vs, hlk, hx, ⟨v, hv, ?_⟩, ?_⟩
      · intro hmem
        rw [Bool.not_eq_true', ← Bool.not_eq_true] at hnv
        exact hnv ((contains_iff_mem l v).mpr hmem)
      · have h2 : some (addMissing l ((List.lookup x t).getD [])) = some l2 := h
        rw [hlk] at h2
        simp only [Option.getD_some, Option.some.injEq] at h2
        exact h2.symm

theorem shStepO_some {l l2 : List String} (h : shStepO l = some l2) :
    ∃ x vs, List.lookup x shorthandTable = some vs ∧ x ∈ l ∧
      l2 = (addMissing l vs).erase x := by
  unfold shStepO at h
  cases hfind : l.find? (fun x => (List.lookup x shorthandTable).isSome) with
  | none => rw [hfind] at h; cases h
  | some x =>
    rw [hfind] at h
    have hx : x ∈ l := List.mem_of_find?_eq_some hfind
    have hpx := List.find?_some hfind
    rcases Option.isSome_iff_exists.mp hpx with ⟨vs, hlk⟩
    refine ⟨x, vs, hlk, hx, ?_⟩
    have h2 : some ((addMissing l ((List.lookup x shorthandTable).getD [])).erase x) =
        some l2 := h
    rw [hlk] at h2
    simp only [Option.getD_some, Option.some.injEq] at h2
    exact h2.symm

/-! ### Termination of the two fixed-point loops -/

theorem implStep_measure_lt {t : List (String × List String)} {l l2 : List String}
    (h : implStepO t l = some l2) :
    ((tblVals t).toFinset \ l2.toFinset).card < ((tblVals t).toFinset \ l.toFinset).card := by
  rcases implStepO_some h with ⟨x, vs, hlk, hx, ⟨v, hv, hvn⟩, rfl⟩
  have hsub : (tblVals t).toFinset \ (addMissing l vs).toFinset ⊆
      (tblVals t).toFinset \ l.toFinset := by
    intro y hy
    rw [Finset.mem_sdiff] at hy ⊢
    refine ⟨hy.1, fun hyl => hy.2 ?_⟩
    rw [List.mem_toFinset] at hyl ⊢
    exact mem_addMissing_of_mem y vs l hyl
  have hvV : v ∈ tblVals t := mem_tblVals (lookup_some_mem t hlk) v hv
  have hstrict : v ∈ (tblVals t).toFinset \ l.toFinset := by
    rw [Finset.mem_sdiff, List.mem_toFinset, List.mem_toFinset]
    exact ⟨hvV, hvn⟩
  have hnotin : v ∉ (tblVals t).toFinset \ (addMissing l vs).toFinset := by
    rw [Finset.mem_sdiff, List.mem_toFinset, List.mem_toFinset]
    push_neg
    intro _
    exact mem_addMissing_of_mem_vals v vs l hv
  exact Finset.card_lt_card
    ((Finset.ssubset_iff_of_subset hsub).mpr ⟨v, hstrict, hnotin⟩)

theorem implLoop_fix (t : List (String × List String)) :
    ∀ (fuel : Nat) (l : List String),
      ((tblVals t).toFinset \ l.toFinset).card ≤ fuel →
      implStepO t (implLoop t fuel l) = none
  | 0, l, hle => by
    unfold implLoop
    cases hs : implStepO t l with
    | none => rfl
    | some l2 => exact absurd (implStep_measure_lt hs) (by omega)

  | fuel + 1, l, hle => by
    unfold implLoop
    cases hs : implStepO t l with
    | none => exact hs
    | some l2 =>
      exact implLoop_fix t fuel l2 (by have := implStep_measure_lt hs; omega)

/-- The implication phase ends in a state where a full pass adds nothing,
for every table (cyclic ones included) and every input list. -/
theorem implClose_fix (t : List (String × List String)) (l : List String) :
    implStepO t (implClose t l) = none :=
  implLoop_fix t _ l
    (le_trans (Finset.card_le_card Finset.sdiff_subset) (List.toFinset_card_le _))

theorem implLoop_mem_mono (t : List (String × List String)) (x : String) :
    ∀ (fuel : Nat) (l : List String), x ∈ l → x ∈ implLoop t fuel l
  | 0, _, h => h
  | fuel + 1, l, h => by
    unfold implLoop
    cases hs : implStepO t l with
    | none => exact h
    | some l2 =>
      rcases implStepO_some hs with ⟨y, vs, _, _, _, rfl⟩
      exact implLoop_mem_mono t x fuel _ (mem_addMissing_of_mem x vs l h)

theorem mem_implLoop (t : List (String × List String)) (x : String) :
    ∀ (fuel : Nat) (l : List String), x ∈ implLoop t fuel l → x ∈ l ∨ x ∈ tblVals t
  | 0, _, h => Or.inl h
  | fuel + 1, l, h => by
    unfold implLoop at h
    cases hs : implStepO t l with
    | none => rw [hs] at h; exact Or.inl h
    | some l2 =>
      rw [hs] at h
      rcases implStepO_some hs with ⟨y, vs, hlk, _, _, rfl⟩
      rcases mem_implLoop t x fuel _ h with h2 | h2
      · rcases mem_addMissing x vs l h2 with h3 | h3
        · exact Or.inl h3
        · exact Or.inr (mem_tblVals (lookup_some_mem t hlk) x h3)
      · exact Or.inr h2

theorem SortedS_implLoop (t : List (String × List String)) :
    ∀ (fuel : Nat) (l : List String), SortedS l → SortedS (implLoop t fuel l)
  | 0, _, h => h
  | fuel + 1, l, h => by
    unfold implLoop
    cases hs : implStepO t l with
    | none => exact h
    | some l2 =>
      rcases implStepO_some hs with ⟨y, vs, _, _, _, rfl⟩
      exact SortedS_implLoop t fuel _ (SortedS_addMissing vs l h)

/-- Each shorthand key outweighs its whole expansion: the structural fact
that makes each substitution step shrink the total weight. -/
theorem shTable_weight : ∀ p ∈ shorthandTable, (p.2.map phi).sum + 1 ≤ phi p.1 := by decide

theorem shStep_Mphi_lt {l l2 : List String} (h : shStepO l = some l2) : Mphi l2 < Mphi l := by
  rcases shStepO_some h with ⟨x, vs, hlk, hx, rfl⟩
  have hxA : x ∈ addMissing l vs := mem_addMissing_of_mem x vs l hx
  have h1 : Mphi ((addMissing l vs).erase x) + phi x = Mphi (addMissing l vs) :=
    Mphi_erase hxA
  have h2 : Mphi (addMissing l vs) ≤ Mphi l + (vs.map phi).sum :=
    Mphi_addMissing_le vs l
  have h3 : (vs.map phi).sum + 1 ≤ phi x :=
    shTable_weight (x, vs) (lookup_some_mem shorthandTable hlk)
  omega

theorem shLoop_fix :
    ∀ (fuel : Nat) (l : List String), Mphi l ≤ fuel → shStepO (shLoop fuel l) = none
  | 0, l, hle => by
    unfold shLoop
    cases hs : shStepO l with
    | none => rfl
    | some l2 => exact absurd (shStep_Mphi_lt hs) (by omega)
  | fuel + 1, l, hle => by
    unfold shLoop
    cases hs : shStepO l with
    | none => exact hs
    | some l2 => exact shLoop_fix fuel l2 (by have := shStep_Mphi_lt hs; omega)

/-- The shorthand phase ends in a state where a scan finds no shorthand
member. -/
theorem shClose_fix (l : List String) : shStepO (shClose l) = none :=
  shLoop_fix _ l (le_refl _)

theorem shLoop_of_none {l : List String} (h : shStepO l = none) :
    ∀ fuel : Nat, shLoop fuel l = l
  | 0 => rfl
  | fuel + 1 => by unfold shLoop; rw [h]

theorem mem_shLoop (x : String) :
    ∀ (fuel : Nat) (l : List String), x ∈ shLoop fuel l → x ∈ l ∨ x ∈ tblVals shorthandTable
  | 0, _, h => Or.inl h
  | fuel + 1, l, h => by
    unfold shLoop at h
    cases hs : shStepO l with
    | none => rw [hs] at h; exact Or.inl h
    | some l2 =>
      rw [hs] at h
      rcases shStepO_some hs with ⟨y, vs, hlk, _, rfl⟩
      rcases mem_shLoop x fuel _ h with h2 | h2
      · have h3 := List.mem_of_mem_erase h2
        rcases mem_addMissing x vs l h3 with h4 | h4
        · exact Or.inl h4
        · exact Or.inr (mem_tblVals (lookup_some_mem shorthandTable hlk) x h4)
      · exact Or.inr h2

theorem SortedS_shLoop :
    ∀ (fuel : Nat) (l : List String), SortedS l → SortedS (shLoop fuel l)
  | 0, _, h => h
  | fuel + 1, l, h => by
    unfold shLoop
    cases hs : shStepO l with
    | none => exact h
    | some l2 =>
      rcases shStepO_some hs with ⟨y, vs, _, _, rfl⟩
      exact SortedS_shLoop fuel _ (SortedS_erase y _ (SortedS_addMissing vs l h))

/-! ### Shape lemmas for the tokenizer and the version stripper -/

theorem takeWhile_append_sat {p : Char → Bool} :
    ∀ (xs : List Char) (y : Char) (ys : List Char), (∀ x ∈ xs, p x = true) → p y = false →
      (xs ++ y :: ys).takeWhile p = xs ∧ (xs ++ y :: ys).dropWhile p = y :: ys
  | [], y, ys, _, hy => by
    simp [List.takeWhile_cons, List.dropWhile_cons, hy]
  | x :: xs, y, ys, hall, hy => by
    have hx : p x = true := hall x (List.mem_cons_self _ _)
    have ih := takeWhile_append_sat xs y ys (fun z hz => hall z (List.mem_cons_of_mem x hz)) hy
    simp [List.takeWhile_cons, List.dropWhile_cons, hx, ih.1, ih.2]

theorem dropWhile_head_not {p : Char → Bool} :
    ∀ l : List Char, l.dropWhile p = [] ∨ ∃ y ys, l.dropWhile p = y :: ys ∧ p y = false
  | [] => Or.inl rfl
  | x :: xs => by
    by_cases hx : p x = true
    · rw [List.dropWhile_cons, if_pos hx]
      exact dropWhile_head_not xs
    · rw [List.dropWhile_cons, if_neg hx]
      exact Or.inr ⟨x, xs, rfl, by simpa using hx⟩

theorem not_sv_single (c : Char) : String.mk [c] ∉ svNames := by
  intro hmem
  rcases (by simpa [svNames] using hmem : String.mk [c] = "sv32" ∨ String.mk [c] = "sv39" ∨
      String.mk [c] = "sv48" ∨ String.mk [c] = "sv59") with h | h | h | h <;>
    · have hd := congrArg String.data h
      simp at hd

theorem not_sv_digit (c d : Char) (rest : List Char) (hd : d.isDigit = true) :
    String.mk (c :: d :: rest) ∉ svNames := by
  intro hmem
  rcases (by simpa [svNames] using hmem : String.mk (c :: d :: rest) = "sv32" ∨
      String.mk (c :: d :: rest) = "sv39" ∨ String.mk (c :: d :: rest) = "sv48" ∨
      String.mk (c :: d :: rest) = "sv59") with h | h | h | h <;>
    · have hdt := congrArg String.data h
      have hdv : d = 'v' := (List.cons.inj (List.cons.inj hdt).2).1
      rw [hdv] at hd
      exact absurd hd (by decide)

theorem strip_of_form (c : Char) (d1 : List Char) (hc : c.isDigit = false)
    (hd1 : ∀ x ∈ d1, x.isDigit = true) (hnsv : String.mk (c :: d1) ∉ svNames) :
    stripVersion (c :: d1) = [c] := by
  unfold stripVersion
  rw [if_neg hnsv]
  cases d1 with
  | nil =>
    simp [List.takeWhile_cons, hc]
  | cons e d1' =>
    have hrev : (c :: e :: d1').reverse = (e :: d1').reverse ++ c :: [] := by
      simp
    have hall : ∀ x ∈ (e :: d1').reverse, x.isDigit = true := by
      intro x hx
      exact hd1 x (List.mem_reverse.mp hx)
    have htd := takeWhile_append_sat ((e :: d1').reverse) c [] hall hc
    rw [hrev]
    simp only [htd.1, htd.2]
    have hne : (e :: d1').reverse ≠ [] := by simp
    rw [if_neg hne]
    by_cases hcp : c = 'p'
    · subst hcp
      simp
    · split
      · rename_i r2 heq
        exact absurd (List.cons.inj heq).1 hcp
      · simp

theorem strip_of_form2 (c : Char) (d1 d2 : List Char) (hc : c.isDigit = false)
    (hd1 : ∀ x ∈ d1, x.isDigit = true) (hd1n : d1 ≠ [])
    (hd2 : ∀ x ∈ d2, x.isDigit = true) (hd2n : d2 ≠ [])
    (hnsv : String.mk (c :: d1 ++ 'p' :: d2) ∉ svNames) :
    stripVersion (c :: d1 ++ 'p' :: d2) = [c] := by
  unfold stripVersion
  rw [if_neg hnsv]
  have hrev : (c :: d1 ++ 'p' :: d2).reverse = d2.reverse ++ 'p' :: (d1.reverse ++ c :: []) := by
    simp
  have hall2 : ∀ x ∈ d2.reverse, x.isDigit = true := fun x hx => hd2 x (List.mem_reverse.mp hx)
  have htd := takeWhile_append_sat d2.reverse 'p' (d1.reverse ++ c :: []) hall2 (by decide)
  rw [hrev]
  simp only [htd.1, htd.2]
  have hne2 : d2.reverse ≠ [] := by
    intro hnil
    exact hd2n (by simpa using congrArg List.reverse hnil)
  rw [if_neg hne2]
  have hall1 : ∀ x ∈ d1.reverse, x.isDigit = true := fun x hx => hd1 x (List.mem_reverse.mp hx)
  have htd1 := takeWhile_append_sat d1.reverse c [] hall1 hc
  have hne1 : d1.reverse ≠ [] := by
    intro hnil
    exact hd1n (by simpa using congrArg List.reverse hnil)
  simp only [htd1.1, htd1.2, if_neg hne1]
  simp

theorem matchMulti_some {l tok rest : List Char} (h : matchMulti l = some (tok, rest)) :
    tok = l.takeWhile (fun c => c != '_') ∧ rest = l.dropWhile (fun c => c != '_') ∧
      tok ≠ [] := by
  unfold matchMulti at h
  by_cases ht : l.takeWhile (fun c => c != '_') = []
  · rw [if_pos ht] at h; cases h
  · rw [if_neg ht] at h
    simp only [Option.some.injEq, Prod.mk.injEq] at h
    refine ⟨h.1.symm, h.2.symm, ?_⟩
    rw [← h.1]
    exact ht

theorem rest_inv_of_matchMulti {l tok rest : List Char} (h : matchMulti l = some (tok, rest)) :
    rest = [] ∨ ∃ r, rest = '_' :: r := by
  obtain ⟨-, hrest, -⟩ := matchMulti_some h
  rcases dropWhile_head_not (p := fun c => c != '_') l with h1 | ⟨y, ys, h1, hy⟩
  · left; rw [hrest, h1]
  · right
    have hyu : y = '_' := by simpa using hy
    exact ⟨ys, by rw [hrest, h1, hyu]⟩

theorem matchSingle_strip {l tok rest : List Char}
    (h : matchSingle l = some (tok, rest)) :
    ∃ c : Char, c.isDigit = false ∧ stripVersion tok = [c] := by
  cases l with
  | nil => cases h
  | cons c cs =>
    simp only [matchSingle] at h
    by_cases hc : c.isDigit = true
    · rw [if_pos hc] at h; cases h
    · rw [if_neg hc] at h
      have hcf : c.isDigit = false := by simpa using hc
      refine ⟨c, hcf, ?_⟩
      have hall1 : ∀ x ∈ cs.takeWhile Char.isDigit, x.isDigit = true :=
        fun x hx => List.mem_takeWhile_imp hx
      by_cases hd1 : cs.takeWhile Char.isDigit = []
      · rw [if_pos hd1] at h
        simp only [Option.some.injEq, Prod.mk.injEq] at h
        rw [← h.1]
        exact strip_of_form c [] hcf (by intro x hx; cases hx) (not_sv_single c)
      · rw [if_neg hd1] at h
        obtain ⟨e, d1', hd1e⟩ : ∃ e d1', cs.takeWhile Char.isDigit = e :: d1' := by
          cases hte : cs.takeWhile Char.isDigit with
          | nil => exact absurd hte hd1
          | cons e d1' => exact ⟨e, d1', rfl⟩
        have hed : e.isDigit = true := hall1 e (hd1e ▸ List.mem_cons_self _ _)
        have hnsv : String.mk (c :: cs.takeWhile Char.isDigit) ∉ svNames := by
          rw [hd1e]
          exact not_sv_digit c e d1' hed
        have hform : stripVersion (c :: cs.takeWhile Char.isDigit) = [c] :=
          strip_of_form c _ hcf hall1 hnsv
        split at h
        · rename_i r2 heq
          by_cases hd2 : r2.takeWhile Char.isDigit = []
          · rw [if_pos hd2] at h
            simp only [Option.some.injEq, Prod.mk.injEq] at h
            rw [← h.1]
            exact hform
          · rw [if_neg hd2] at h
            simp only [Option.some.injEq, Prod.mk.injEq] at h
            rw [← h.1]
            have hall2 : ∀ x ∈ r2.takeWhile Char.isDigit, x.isDigit = true :=
              fun x hx => List.mem_takeWhile_imp hx
            have hnsv2 : String.mk (c :: cs.takeWhile Char.isDigit ++
                'p' :: r2.takeWhile Char.isDigit) ∉ svNames := by
              rw [hd1e]
              exact not_sv_digit c e (d1' ++ 'p' :: r2.takeWhile Char.isDigit) hed
            exact strip_of_form2 c _ _ hcf hall1 hd1 hall2 hd2 hnsv2
        · simp only [Option.some.injEq, Prod.mk.injEq] at h
          rw [← h.1]
          exact hform

theorem mem_of_revdrop {tok : List Char} {x : Char}
    (h : x ∈ (tok.reverse.dropWhile Char.isDigit).reverse) : x ∈ tok :=
  List.mem_reverse.mp ((List.dropWhile_sublist _).subset (List.mem_reverse.mp h))

theorem mem_stripVersion (tok : List Char) (x : Char) (h : x ∈ stripVersion tok) : x ∈ tok := by
  unfold stripVersion at h
  split at h
  · exact h
  · split at h
    · exact h
    · split at h
      · rename_i r2 heq
        split at h
        · exact mem_of_revdrop h
        · have h1 : x ∈ r2 :=
            (List.dropWhile_sublist _).subset (List.mem_reverse.mp h)
          have h2 : x ∈ tok.reverse.dropWhile Char.isDigit := by
            rw [heq]
            exact List.mem_cons_of_mem _ h1
          exact List.mem_reverse.mp ((List.dropWhile_sublist _).subset h2)
      · exact mem_of_revdrop h

/-! ### Step equations and invariants of the tokenizer loop -/

theorem parseTokensF_nil (fuel : Nat) (multi : Bool) (acc : List String) :
    parseTokensF fuel [] multi acc = .ok acc := by
  cases fuel <;> rfl

theorem parseTokensF_underscore_step (fuel : Nat) (d : Char) (ds : List Char) (multi : Bool)
    (acc : List String) :
    parseTokensF (fuel + 1) ('_' :: d :: ds) multi acc =
      match (if multi || (d ∈ sxzChars) then matchMulti (d :: ds)
          else matchSingle (d :: ds)) with
      | none => .error .expectingExtension
      | some (tok, rest) =>
        if stripVersion tok = [] then .error .zeroLengthExtension
        else parseTokensF fuel rest (multi || (d ∈ sxzChars))
          (insertSorted (String.mk (stripVersion tok)) acc) := by
  simp [parseTokensF]

theorem parseTokensF_underscore_end (fuel : Nat) (multi : Bool) (acc : List String) :
    parseTokensF (fuel + 1) ('_' :: []) multi acc = .error .missingExtension := by
  simp [parseTokensF]

theorem parseTokensF_plain_step (fuel : Nat) (c : Char) (cs : List Char)
    (acc : List String) (hc : ¬ c = '_') :
    parseTokensF (fuel + 1) (c :: cs) false acc =
      match (if false || (c ∈ sxzChars) then matchMulti (c :: cs)
          else matchSingle (c :: cs)) with
      | none => .error .expectingExtension
      | some (tok, rest) =>
        if stripVersion tok = [] then .error .zeroLengthExtension
        else parseTokensF fuel rest (false || (c ∈ sxzChars))
          (insertSorted (String.mk (stripVersion tok)) acc) := by
  simp [parseTokensF, hc]

theorem parseTokensF_multi_err (fuel : Nat) (c : Char) (cs : List Char)
    (acc : List String) (hc : ¬ c = '_') :
    parseTokensF (fuel + 1) (c :: cs) true acc = .error .expectingUnderscore := by
  simp [parseTokensF, hc]

theorem PExt_of_token {b : Bool} {l tok rest : List Char}
    (hm : (if b then matchMulti l else matchSingle l) = some (tok, rest))
    (hz : ¬ stripVersion tok = []) : PExt (String.mk (stripVersion tok)) := by
  cases b
  · rcases matchSingle_strip (by simpa using hm) with ⟨c, hcd, hstrip⟩
    rw [hstrip]
    constructor
    · intro hemp
      exact List.cons_ne_nil c [] (by simpa using congrArg String.data hemp)
    · intro hu
      have hc : c = '_' := by
        rcases List.mem_cons.mp hu with h | h
        · exact h.symm
        · cases h
      rw [hc]
  · obtain ⟨htok, hrest, hne⟩ := matchMulti_some (by simpa using hm)
    constructor
    · intro hemp
      exact hz (by simpa using congrArg String.data hemp)
    · intro hu
      exfalso
      have h2 : '_' ∈ tok := mem_stripVersion tok '_' hu
      rw [htok] at h2
      have h3 := List.mem_takeWhile_imp h2
      simp at h3

theorem parseTokensF_ne_underscore :
    ∀ (fuel : Nat) (s : List Char) (multi : Bool) (acc : List String),
      (multi = true → s = [] ∨ ∃ r, s = '_' :: r) →
      parseTokensF fuel s multi acc ≠ .error .expectingUnderscore
  | fuel, [], multi, acc, _ => by
    rw [parseTokensF_nil]
    intro h; cases h
  | 0, c :: cs, multi, acc, _ => by
    intro h
    simp [parseTokensF] at h
  | fuel + 1, c :: cs, multi, acc, hinv => by
    by_cases hc : c = '_'
    · subst hc
      cases cs with
      | nil =>
        rw [parseTokensF_underscore_end]
        intro h
        simp at h
      | cons d ds =>
        rw [parseTokensF_underscore_step]
        cases hm : (if multi || (d ∈ sxzChars) then matchMulti (d :: ds)
            else matchSingle (d :: ds)) with
        | none =>
          intro h
          simp at h
        | some pr =>
          obtain ⟨tok, rest⟩ := pr
          simp only []
          by_cases hz : stripVersion tok = []
          · rw [if_pos hz]
            intro h
            simp at h
          · rw [if_neg hz]
            refine parseTokensF_ne_underscore fuel rest (multi || (d ∈ sxzChars)) _ ?_
            intro hm2
            rw [hm2] at hm
            cases hmor : multi || (d ∈ sxzChars) with
            | true =>
              simp only [if_pos rfl] at hm
              exact rest_inv_of_matchMulti hm
            | false => rw [hmor] at hm2; cases hm2
    · have hmf : multi = false := by
        cases hmv : multi with
        | false => rfl
        | true =>
          rcases hinv hmv with h1 | ⟨r, h2⟩
          · cases h1
          · exact absurd (List.cons.inj h2).1 hc
      subst hmf
      rw [parseTokensF_plain_step fuel c cs acc hc]
      cases hm : (if false || (c ∈ sxzChars) then matchMulti (c :: cs)
          else matchSingle (c :: cs)) with
      | none =>
        intro h
        simp at h
      | some pr =>
        obtain ⟨tok, rest⟩ := pr
        simp only []
        by_cases hz : stripVersion tok = []
        · rw [if_pos hz]
          intro h
          simp at h
        · rw [if_neg hz]
          refine parseTokensF_ne_underscore fuel rest (false || (c ∈ sxzChars)) _ ?_
          intro hm2
          rw [hm2] at hm
          cases hmor : false || (c ∈ sxzChars) with
          | true =>
            simp only [if_pos rfl] at hm
            exact rest_inv_of_matchMulti hm
          | false => rw [hmor] at hm2; cases hm2

theorem parseTokensF_PExt :
    ∀ (fuel : Nat) (s : List Char) (multi : Bool) (acc : List String),
      (∀ x ∈ acc, PExt x) → ∀ res, parseTokensF fuel s multi acc = .ok res →
      ∀ x ∈ res, PExt x
  | fuel, [], multi, acc, hacc, res, heq => by
    rw [parseTokensF_nil] at heq
    have h2 : acc = res := by injection heq
    exact h2 ▸ hacc
  | 0, c :: cs, multi, acc, hacc, res, heq => by
    simp [parseTokensF] at heq
  | fuel + 1, c :: cs, multi, acc, hacc, res, heq => by
    by_cases hc : c = '_'
    · subst hc
      cases cs with
      | nil =>
        rw [parseTokensF_underscore_end] at heq
        simp at heq
      | cons d ds =>
        rw [parseTokensF_underscore_step] at heq
        cases hm : (if multi || (d ∈ sxzChars) then matchMulti (d :: ds)
            else matchSingle (d :: ds)) with
        | none => rw [hm] at heq; simp at heq
        | some pr =>
          obtain ⟨tok, rest⟩ := pr
          rw [hm] at heq
          replace heq : (if stripVersion tok = [] then
              (Except.error RErr.zeroLengthExtension : Except RErr (List String))
            else parseTokensF fuel rest (multi || (d ∈ sxzChars))
              (insertSorted (String.mk (stripVersion tok)) acc)) = .ok res := heq
          by_cases hz : stripVersion tok = []
          · rw [if_pos hz] at heq; simp at heq
          · rw [if_neg hz] at heq
            refine parseTokensF_PExt fuel rest _ _ ?_ res heq
            intro x hx
            rcases (mem_insertSorted _ x acc).mp hx with rfl | hxa
            · exact PExt_of_token hm hz
            · exact hacc x hxa
    · cases hmv : multi with
      | true =>
        subst hmv
        rw [parseTokensF_multi_err fuel c cs acc hc] at heq
        simp at heq
      | false =>
        subst hmv
        rw [parseTokensF_plain_step fuel c cs acc hc] at heq
        cases hm : (if false || (c ∈ sxzChars) then matchMulti (c :: cs)
            else matchSingle (c :: cs)) with
        | none => rw [hm] at heq; simp at heq
        | some pr =>
          obtain ⟨tok, rest⟩ := pr
          rw [hm] at heq
          replace heq : (if stripVersion tok = [] then
              (Except.error RErr.zeroLengthExtension : Except RErr (List String))
            else parseTokensF fuel rest (false || (c ∈ sxzChars))
              (insertSorted (String.mk (stripVersion tok)) acc)) = .ok res := heq
          by_cases hz : stripVersion tok = []
          · rw [if_pos hz] at heq; simp at heq
          · rw [if_neg hz] at heq
            refine parseTokensF_PExt fuel rest _ _ ?_ res heq
            intro x hx
            rcases (mem_insertSorted _ x acc).mp hx with rfl | hxa
            · exact PExt_of_token hm hz
            · exact hacc x hxa

/-- All names occurring as table values are well formed. -/
theorem PExt_tblVals_implies : ∀ v ∈ tblVals impliesTable, PExt v := by
  have h : ∀ v ∈ tblVals impliesTable, v ≠ "" ∧ ('_' ∈ v.data → v = "_") := by decide
  exact h

theorem PExt_tblVals_shorthand : ∀ v ∈ tblVals shorthandTable, PExt v := by
  have h : ∀ v ∈ tblVals shorthandTable, v ≠ "" ∧ ('_' ∈ v.data → v = "_") := by decide
  exact h

theorem PExt_add_implied {l : List String} (h : ∀ x ∈ l, PExt x) :
    ∀ x ∈ add_implied_extensions l, PExt x := by
  intro x hx
  unfold add_implied_extensions shClose implClose at hx
  rcases mem_shLoop x _ _ hx with h2 | h2
  · rcases mem_implLoop impliesTable x _ _ h2 with h3 | h3
    · exact h x h3
    · exact PExt_tblVals_implies x h3
  · exact PExt_tblVals_shorthand x h2

theorem parse_isa_string_PExt {s : List Char} {res : List String}
    (h : parse_isa_string s = .ok res) : ∀ x ∈ res, PExt x := by
  unfold parse_isa_string at h
  cases hp : parseTokensF s.length s false [] with
  | error e => rw [hp] at h; simp at h
  | ok exts =>
    rw [hp] at h
    replace h : Except.ok (ε := RErr) (add_implied_extensions exts) = .ok res := h
    have h2 : add_implied_extensions exts = res := by injection h
    have hexts : ∀ x ∈ exts, PExt x :=
      parseTokensF_PExt s.length s false [] (by intro x hx; cases hx) exts hp
    exact h2 ▸ PExt_add_implied hexts

/-! ### Sortedness of the constructed lists -/

theorem SortedS_foldl :
    ∀ (l acc : List String), SortedS acc →
      SortedS (l.foldl (fun acc x => insertSorted x acc) acc)
  | [], _, h => h
  | x :: l, acc, h => SortedS_foldl l _ (SortedS_insertSorted x acc h)

theorem SortedS_mkSortedList (l : List String) : SortedS (mkSortedList l) :=
  SortedS_foldl l [] List.Pairwise.nil

theorem SortedS_add_implied {l : List String} (h : SortedS l) :
    SortedS (add_implied_extensions l) :=
  SortedS_shLoop _ _ (SortedS_implLoop impliesTable _ _ h)

theorem SortedS_rva23_to_check : SortedS rva23_to_check := by
  unfold rva23_to_check rva23_required
  exact List.Pairwise.sublist (List.filter_sublist _)
    (SortedS_add_implied (SortedS_mkSortedList rva23Raw))

/-! ### The claims -/

/-- C1: the spec and the repository's own test `test_extensions` state that
`"rv32imaczicsr_zifencei"` yields extensions
`{a, c, i, m, zicsr, zifencei, zmmul}`; the code instead also inserts
`zaamo` (via the `'a': ['zaamo']` implication), contradicting its own test.
This theorem evaluates the code at the failing input. -/
theorem c1_code_behavior : riscvExtensionAnalyzer ("rv32imaczicsr_zifencei") =
    .ok (32, ["a", "c", "i", "m", "zaamo", "zicsr", "zifencei", "zmmul"]) := rfl

/-- C2: the spec and the repository's own test state that `"rv64gcsv39"`
yields `{a, c, d, f, g, i, m, sv39, zicsr, zifencei, zmmul}` with `g`
retained; the code removes `g` (it is a `shorthand` key) and never adds
`zmmul` (the implication phase ran before `m` was introduced by the
expansion of `g`), contradicting its own test.  This theorem evaluates the
code at the failing input. -/
theorem c2_code_behavior : riscvExtensionAnalyzer ("rv64gcsv39") =
    .ok (64, ["a", "c", "d", "f", "i", "m", "sv39", "zicsr", "zifencei"]) := rfl

/-- C3: shorthand expansion is idempotent, and its result contains no name
that is a key of the shorthand table. -/
theorem c3_shorthand_idempotent (l : List String) :
    shClose (shClose l) = shClose l ∧
      ∀ x ∈ shClose l, x ∉ shorthandTable.map Prod.fst := by
  have hfix := shClose_fix l
  constructor
  · show shLoop (Mphi (shClose l)) (shClose l) = shClose l
    exact shLoop_of_none hfix _
  · intro x hx hkey
    have hfind : (shClose l).find? (fun x => (List.lookup x shorthandTable).isSome) = none := by
      unfold shStepO at hfix
      cases hf : (shClose l).find? (fun x => (List.lookup x shorthandTable).isSome) with
      | none => rfl
      | some y => rw [hf] at hfix; cases hfix
    exact List.find?_eq_none.mp hfind x hx ((lookup_isSome_iff x shorthandTable).mpr hkey)

/-- C3 witness at the concrete input `{zk}`. -/
theorem c3_shorthand_idempotent_witness :
    shClose (shClose (["zk"])) = shClose (["zk"]) ∧
      (("zkr" : String) ∈ shClose (["zk"]) ∧
        ("zkr" : String) ∉ shorthandTable.map Prod.fst) :=
  ⟨(c3_shorthand_idempotent (["zk"])).1,
    ⟨by decide, (c3_shorthand_idempotent (["zk"])).2 ("zkr") (by decide)⟩⟩

/-- C4: implication resolution is monotone: every member present before
resolution is still a member of the result, for every table (the source's
included) and every input set. -/
theorem c4_implication_monotone (t : List (String × List String)) (l : List String)
    (x : String) (hx : x ∈ l) : x ∈ implClose t l :=
  implLoop_mem_mono t x _ l hx

/-- C4 witness at the concrete input `{i}`. -/
theorem c4_implication_monotone_witness :
    ("i" : String) ∈ (["i"] : List String) ∧
      ("i" : String) ∈ implClose impliesTable (["i"]) :=
  ⟨by decide, c4_implication_monotone impliesTable (["i"]) ("i") (by decide)⟩

/-- C5 counterexample: parsing the remainder `"izicsr"` does not fail at
all, let alone with `ExpectingUnderscore` — the tokenizer sets the
multi-character flag on seeing `z` before the separator check of the next
iteration, so the error is never reached. -/
theorem c5_counterexample : parse_isa_string (("izicsr").data) = .ok ["i", "zicsr"] := rfl

/-- C5 amended: constructing the analyzer on `"rv64izicsr"` succeeds with
bitness 64 and extensions `{i, zicsr}`. -/
theorem c5_amended : riscvExtensionAnalyzer ("rv64izicsr") = .ok (64, ["i", "zicsr"]) := rfl

/-- C6 counterexample: the collection is a `SortedList`, not a set —
parsing `"rv64ii"` yields the name `i` twice, so duplicate insertion is
not a no-op. -/
theorem c6_counterexample : riscvExtensionAnalyzer ("rv64ii") = .ok (64, ["i", "i"]) ∧
    List.count ("i") (["i", "i"]) = 2 := ⟨rfl, rfl⟩

/-- C6 amended: the collection built by a parse is a sorted list that
admits duplicates: an ISA string naming the same extension twice (also
with different version suffixes) yields that name twice. -/
theorem c6_amended : riscvExtensionAnalyzer ("rv64i_i2p0") = .ok (64, ["i", "i"]) := rfl

/-- C7 counterexample: a second `_` directly after a separator is matched
by the single-letter regex `\D`, so `"rv64i__i"` parses successfully and
the resulting set contains the name `"_"`, which consists of an underscore. -/
theorem c7_counterexample : riscvExtensionAnalyzer ("rv64i__i") = .ok (64, ["_", "i", "i"]) ∧
    '_' ∈ ("_" : String).data := ⟨rfl, by decide⟩

/-- C7 amended: every name in a successfully parsed set is non-empty, and
any name containing an underscore is exactly the one-character name `"_"`
(multi-letter tokens never contain `_`; single-letter tokens are one
character, which may itself be `_`). -/
theorem c7_amended (s : List Char) (res : List String)
    (h : parse_isa_string s = .ok res) :
    ∀ x ∈ res, x ≠ "" ∧ ('_' ∈ x.data → x = "_") :=
  fun x hx => parse_isa_string_PExt h x hx

/-- C7 amended, witness at the concrete input `"i__i"`. -/
theorem c7_amended_witness :
    parse_isa_string (("i__i").data) = .ok ["_", "i", "i"] ∧
      (("_" : String) ≠ "" ∧ ('_' ∈ ("_" : String).data → ("_" : String) = "_")) :=
  ⟨rfl, c7_amended (("i__i").data) ["_", "i", "i"] rfl ("_") (by decide)⟩

/-- C8: the fixed-point closure terminates on every finite input list: the
implication phase reaches a state where a full pass adds nothing (for
every implication table, cyclic ones included), the shorthand phase
reaches a state where a scan finds no shorthand member, and
`add_implied_extensions` is exactly the implication phase followed by the
shorthand phase. -/
theorem c8_closure_terminates (t : List (String × List String)) (l : List String) :
    implStepO t (implClose t l) = none ∧ shStepO (shClose l) = none ∧
      add_implied_extensions l = shClose (implClose impliesTable l) :=
  ⟨implClose_fix t l, shClose_fix l, rfl⟩

/-- C9: `rva23_to_check` is the intersection of the closed RVA23-required
set with the closed kernel-supported set, in ascending lexical order, and
the readiness check succeeds exactly when that intersection is contained
in the actual extension set; otherwise it reports the lexically least
missing member. -/
theorem c9_profile_check (actual : List String) :
    SortedS rva23_to_check ∧
    (∀ x, x ∈ rva23_to_check ↔ x ∈ rva23_required ∧ x ∈ linux_supported) ∧
    (is_rva23_ready actual = .ok () ↔ ∀ x ∈ rva23_to_check, x ∈ actual) ∧
    (∀ e, is_rva23_ready actual = .error e →
      ∃ x, e = "Missing extension " ++ x ∧ x ∈ rva23_to_check ∧ ¬ x ∈ actual ∧
        ∀ y ∈ rva23_to_check, strLE y x = true → y ≠ x → y ∈ actual) := by
  refine ⟨SortedS_rva23_to_check, ?_, ?_, ?_⟩
  · intro x
    unfold rva23_to_check
    rw [List.mem_filter]
    exact and_congr_right (fun _ => contains_iff_mem linux_supported x)
  · cases hf : rva23_to_check.find? (fun e => !(actual.contains e)) with
    | none =>
      constructor
      · intro _ x hx
        have h2 := List.find?_eq_none.mp hf x hx
        simp only [Bool.not_eq_true', Bool.not_eq_false] at h2
        exact (contains_iff_mem actual x).mp h2
      · intro _
        unfold is_rva23_ready
        rw [hf]
    | some x =>
      constructor
      · intro hok
        unfold is_rva23_ready at hok
        rw [hf] at hok
        cases hok
      · intro hall
        exfalso
        have hpe := List.find?_some hf
        have hx : x ∈ rva23_to_check := List.mem_of_find?_eq_some hf
        rw [Bool.not_eq_true'] at hpe
        have : x ∈ actual := hall x hx
        rw [← contains_iff_mem actual x] at this
        rw [this] at hpe
        cases hpe
  · intro e herr
    unfold is_rva23_ready at herr
    cases hf : rva23_to_check.find? (fun e => !(actual.contains e)) with
    | none => rw [hf] at herr; cases herr
    | some x =>
      rw [hf] at herr
      have hex : ("Missing extension " ++ x) = e := by injection herr
      rcases List.find?_eq_some.mp hf with ⟨hpx, as, bs, hsplit, hprev⟩
      refine ⟨x, hex.symm, List.mem_of_find?_eq_some hf, ?_, ?_⟩
      · intro hmem
        rw [Bool.not_eq_true'] at hpx
        rw [← contains_iff_mem actual x] at hmem
        rw [hmem] at hpx
        cases hpx
      · intro y hy hle hne
        rw [hsplit] at hy
        rcases List.mem_append.mp hy with hya | hyb
        · have h2 := hprev y hya
          simp only [Bool.not_eq_eq_eq_not, Bool.not_true, Bool.not_eq_true',
            Bool.not_eq_false] at h2
          exact (contains_iff_mem actual y).mp h2
        · rcases List.mem_cons.mp hyb with rfl | hyb2
          · exact absurd rfl hne
          · have hs := SortedS_rva23_to_check
            rw [SortedS, hsplit] at hs
            rcases List.pairwise_append.mp hs with ⟨-, hpx2, -⟩
            have hxy : strLE x y = true := (List.pairwise_cons.mp hpx2).1 y hyb2
            exact absurd (strLE_antisymm hle hxy) hne

/-- C9 witness: on an actual set containing the whole intersection the
check succeeds, by the theorem's own success criterion. -/
theorem c9_profile_check_witness : is_rva23_ready rva23_to_check = Except.ok () :=
  ((c9_profile_check rva23_to_check).2.2.1).mpr (fun _ hx => hx)

/-- C10: `parse_isa_string` never fails with `ExpectingUnderscore`: once
the sticky multi-character flag is set, the remaining string is always
empty or starts with `_`, so the error branch is unreachable. -/
theorem c10_no_expecting_underscore (s : List Char) :
    parse_isa_string s ≠ .error .expectingUnderscore := by
  unfold parse_isa_string
  cases hp : parseTokensF s.length s false [] with
  | error e =>
    have hne := parseTokensF_ne_underscore s.length s false [] (by intro h; cases h)
    rw [hp] at hne
    intro hcontra
    exact hne hcontra
  | ok exts =>
    intro hcontra
    simp at hcontra

/-- C10 witness at the concrete input `"izicsr"`. -/
theorem c10_no_expecting_underscore_witness :
    parse_isa_string (("izicsr").data) ≠ .error .expectingUnderscore :=
  c10_no_expecting_underscore (("izicsr").data)
